import Mathlib

/-!
Shallow embedding of `gpytorch/lazy/diag_lazy_tensor.py` (class `DiagLazyTensor`).

Tensors are modelled as nested lists of rationals (the source delegates numeric
work to a dense tensor library over machine floats; the operations verified here
are additions and multiplications, which are exact, so `ℚ` entries are used).
A tensor of rank 1 is a `Vec`, rank 2 a `Mat`, rank 3 a `List Mat`.
-/

abbrev Vec := List ℚ
abbrev Mat := List (List ℚ)

/-- A dense tensor of rank 1, 2 or 3, as handled by `_matmul`. -/
inductive Tensor where
  | t1 (v : Vec)
  | t2 (m : Mat)
  | t3 (b : List Mat)
deriving Repr, DecidableEq

/-- `Tensor.ndimension` mirrors `torch.Tensor.ndimension()`. -/
def Tensor.ndimension : Tensor → ℕ
  | .t1 _ => 1
  | .t2 _ => 2
  | .t3 _ => 3

/-- The tensor stored by `DiagLazyTensor.__init__`: the constructor invariant is
that `diag` has 1 dimension (shape `(n,)`, unbatched matrix) or 2 dimensions
(shape `(batch, n)`, batched matrix). -/
inductive DTensor where
  | d1 (v : Vec)
  | d2 (m : Mat)
deriving Repr, DecidableEq

/-- `DiagLazyTensor.__init__(diag)`: stores `diag` as `self._diag`. -/
structure DiagLazyTensor where
  _diag : DTensor
deriving Repr, DecidableEq

namespace DiagLazyTensor

/-- `self.ndimension()`: the rank of the represented matrix, i.e. one more than
the rank of `_diag` (`_size` below returns `(n, n)` resp. `(batch, n, n)`). -/
def ndimension (self : DiagLazyTensor) : ℕ :=
  match self._diag with
  | .d1 _ => 2
  | .d2 _ => 3

/-- Scale the rows of a matrix elementwise: row `i` is multiplied by `d[i]`.
This is `d.unsqueeze(-1).expand_as(m) * m` for a 1-D `d` and a 2-D `m` of
matching leading dimension. -/
def scaleRows (d : Vec) (m : Mat) : Mat :=
  List.zipWith (fun a row => row.map (fun x => a * x)) d m

/-- `DiagLazyTensor._matmul(rhs)`, translated branch for branch:
if `rhs` is 1-D and `self` is 2-D the result is `self._diag * rhs`
(elementwise); otherwise it is `self._diag.unsqueeze(-1).expand_as(rhs) * rhs`.
`none` models the dense library raising on an incompatible shape (elementwise
multiply of different lengths, or `expand_as` asked to drop a dimension);
the degenerate size-1 broadcasting of the dense library never arises in
well-formed uses and is modelled as a shape error as well. -/
def _matmul (self : DiagLazyTensor) (rhs : Tensor) : Option Tensor :=
  match self._diag, rhs with
  | .d1 d, .t1 v =>
      -- rhs.ndimension() == 1 and self.ndimension() == 2: diag * rhs
      if d.length = v.length then some (.t1 (List.zipWith (· * ·) d v)) else none
  | .d1 d, .t2 m =>
      -- (n, 1) expanded to rhs's (n, k)
      if d.length = m.length then some (.t2 (scaleRows d m)) else none
  | .d1 d, .t3 b =>
      -- (n, 1) expanded to rhs's (B, n, k)
      if b.all (fun m => d.length = m.length) then some (.t3 (b.map (scaleRows d))) else none
  | .d2 db, .t3 b =>
      -- (B, n, 1) expanded to rhs's (B, n, k)
      if db.length = b.length ∧ (List.zip db b).all (fun p => p.1.length = p.2.length) then
        some (.t3 (List.zipWith scaleRows db b))
      else none
  | .d2 _, .t1 _ => none
  | .d2 _, .t2 _ => none

/-- `DiagLazyTensor._t_matmul(rhs)`: the matrix is symmetric, so this is
`self._matmul(rhs)`. -/
def _t_matmul (self : DiagLazyTensor) (rhs : Tensor) : Option Tensor :=
  self._matmul rhs

/-- `DiagLazyTensor._transpose_nonbatch()`: returns `self`. -/
def _transpose_nonbatch (self : DiagLazyTensor) : DiagLazyTensor :=
  self

/-- `DiagLazyTensor.diag()`: returns the stored `_diag` tensor. -/
def diag (self : DiagLazyTensor) : DTensor :=
  self._diag

end DiagLazyTensor

/-- Rank of the `_diag` tensor (`self._diag.ndimension()`). -/
def DTensor.ndimension : DTensor → ℕ
  | .d1 _ => 1
  | .d2 _ => 2

/-- `self._diag.size(-1)`: the trailing dimension. For the 2-D case the list
model recovers it from the first row (a real dense tensor is rectangular). -/
def DTensor.sizeLast : DTensor → ℕ
  | .d1 v => v.length
  | .d2 m => (m.headD []).length

/-- Whether two tensors have exactly equal shapes; the elementwise product in
`_quad_form_derivative` and the comparisons in `_get_indices` require this
(size-1 degenerate broadcasting of the dense library never arises in the
verified uses and is treated as a shape error). -/
def sameShape : Tensor → Tensor → Bool
  | .t1 a, .t1 b => a.length == b.length
  | .t2 a, .t2 b => a.length == b.length &&
      (List.zip a b).all (fun p => p.1.length == p.2.length)
  | .t3 a, .t3 b => a.length == b.length &&
      (List.zip a b).all (fun p => p.1.length == p.2.length &&
        (List.zip p.1 p.2).all (fun q => q.1.length == q.2.length))
  | _, _ => false

/-- Elementwise product of two same-shape tensors (`left_vecs * right_vecs`);
`none` models the dense library raising on incompatible shapes. -/
def tmul? (a b : Tensor) : Option Tensor :=
  if sameShape a b then
    match a, b with
    | .t1 x, .t1 y => some (.t1 (List.zipWith (· * ·) x y))
    | .t2 x, .t2 y => some (.t2 (List.zipWith (List.zipWith (· * ·)) x y))
    | .t3 x, .t3 y => some (.t3 (List.zipWith (List.zipWith (List.zipWith (· * ·))) x y))
    | _, _ => none
  else none

/-- `res.sum(-1)`: sum over the trailing dimension. `_quad_form_derivative`
only applies this to tensors of rank at least 2 (the rank-1 case, where torch
would produce a 0-dim scalar, is unreachable there since `_diag` has rank at
least 1). -/
def tsumLast : Tensor → Tensor
  | .t1 v => .t1 [v.sum]
  | .t2 m => .t1 (m.map List.sum)
  | .t3 b => .t2 (b.map (fun m => m.map List.sum))

namespace DiagLazyTensor

/-- `DiagLazyTensor._quad_form_derivative(left_vecs, right_vecs)`:
`res = left_vecs * right_vecs`; if `res.ndimension() > self._diag.ndimension()`
then `res = res.sum(-1)`; returns the 1-tuple `(res,)` (modelled as a
singleton list). -/
def _quad_form_derivative (self : DiagLazyTensor) (left_vecs right_vecs : Tensor) :
    Option (List Tensor) :=
  (tmul? left_vecs right_vecs).map (fun res =>
    if self._diag.ndimension < res.ndimension then [tsumLast res] else [res])

/-- `DiagLazyTensor._size()`: `(diag.size(0), diag.size(-1), diag.size(-1))`
when `_diag` is 2-D, else `(diag.size(-1), diag.size(-1))`. -/
def _size (self : DiagLazyTensor) : List ℕ :=
  match self._diag with
  | .d2 m => [m.length, DTensor.sizeLast (.d2 m), DTensor.sizeLast (.d2 m)]
  | .d1 v => [v.length, v.length]

end DiagLazyTensor

/-- `d[idx]` for a 1-D tensor `d` and an index tensor `idx`; `none` models the
dense library raising IndexOutOfBounds. -/
def gather1? (d : Vec) (idx : List ℕ) : Option Vec :=
  if idx.all (fun i => i < d.length) then some (idx.map (fun i => d.getD i 0)) else none

/-- `m[bidx, lidx]` for a 2-D tensor `m`: elementwise paired gather; `none`
models the dense library raising IndexOutOfBounds. -/
def gather2? (m : Mat) (bidx lidx : List ℕ) : Option Vec :=
  if bidx.length = lidx.length ∧
      (List.zip bidx lidx).all (fun p => p.1 < m.length ∧ p.2 < (m.getD p.1 []).length) then
    some ((List.zip bidx lidx).map (fun p => (m.getD p.1 []).getD p.2 0))
  else none

namespace DiagLazyTensor

/-- `DiagLazyTensor._get_indices(left_indices, right_indices)`:
`equal_indices = left_indices.eq(right_indices).type_as(self._diag)` and the
result is `self._diag[left_indices] * equal_indices`. This entry point is
invoked by the framework on unbatched instances only (`_diag` 1-D); the 2-D
case is `none` here. -/
def _get_indices (self : DiagLazyTensor) (left_indices right_indices : List ℕ) :
    Option Vec :=
  match self._diag with
  | .d1 d =>
      if left_indices.length = right_indices.length then
        (gather1? d left_indices).map (fun vals =>
          List.zipWith (fun v (p : ℕ × ℕ) => v * (if p.1 = p.2 then 1 else 0))
            vals (List.zip left_indices right_indices))
      else none
  | .d2 _ => none

/-- `DiagLazyTensor._batch_get_indices(batch_indices, left_indices,
right_indices)`: as `_get_indices` but first indexing `self._diag` by the
batch-index tensor: `self._diag[batch_indices, left_indices] * equal_indices`.
Invoked on batched instances only (`_diag` 2-D). -/
def _batch_get_indices (self : DiagLazyTensor)
    (batch_indices left_indices right_indices : List ℕ) : Option Vec :=
  match self._diag with
  | .d2 m =>
      if left_indices.length = right_indices.length ∧
          batch_indices.length = left_indices.length then
        (gather2? m batch_indices left_indices).map (fun vals =>
          List.zipWith (fun v (p : ℕ × ℕ) => v * (if p.1 = p.2 then 1 else 0))
            vals (List.zip left_indices right_indices))
      else none
  | .d1 _ => none

end DiagLazyTensor

/-- A non-diagonal lazy tensor, as can appear as the right operand of
`__add__`. Its internals are irrelevant to this excerpt: it is kept opaque as
a tagged value so a theorem can state that `__add__` passes it through
unevaluated. -/
structure OtherLazyTensor where
  tag : ℕ
deriving Repr, DecidableEq

/-- The right operand of `DiagLazyTensor.__add__`: either another
`DiagLazyTensor` (the `isinstance` branch) or some other lazy tensor. -/
inductive LazyOperand where
  | diagOp (t : DiagLazyTensor)
  | otherOp (o : OtherLazyTensor)
deriving Repr, DecidableEq

/-- Elementwise sum of two same-shape diag tensors (`self._diag +
other._diag`); `none` models the dense library raising on incompatible shapes
(degenerate size-1 broadcasting never arises in the verified uses). -/
def DTensor.addSame? : DTensor → DTensor → Option DTensor
  | .d1 a, .d1 b =>
      if a.length = b.length then some (.d1 (List.zipWith (· + ·) a b)) else none
  | .d2 a, .d2 b =>
      if a.length = b.length ∧ (List.zip a b).all (fun p => p.1.length = p.2.length) then
        some (.d2 (List.zipWith (List.zipWith (· + ·)) a b))
      else none
  | _, _ => none

/-- Result of `DiagLazyTensor.__add__`. Modelled from the spec:
`AddedDiagLazyTensor` (an external collaborator class, not part of this
excerpt) is the lazily-composed "matrix plus diagonal" sum; its constructor
stores its two operands as given — in constructor order `(other, self)` —
and performs no densification. -/
inductive AddResult where
  | diagRes (t : DiagLazyTensor)
  | addedDiagRes (other : OtherLazyTensor) (d : DiagLazyTensor)
deriving Repr, DecidableEq

namespace DiagLazyTensor

/-- `DiagLazyTensor.__add__(other)`: if `other` is a `DiagLazyTensor`,
`DiagLazyTensor(self._diag + other._diag)`; otherwise
`AddedDiagLazyTensor(other, self)`. -/
def add (self : DiagLazyTensor) : LazyOperand → Option AddResult
  | .diagOp t => (self._diag.addSame? t._diag).map (fun d => .diagRes ⟨d⟩)
  | .otherOp o => some (.addedDiagRes o self)

end DiagLazyTensor

/-- torch's `Tensor.diag()` on a 1-D tensor: the dense matrix with the vector
on the main diagonal and zero elsewhere. -/
def diagEmbed (v : Vec) : Mat :=
  (List.range v.length).map (fun i =>
    (List.range v.length).map (fun j => if i = j then v.getD i 0 else 0))

/-- Result of `DiagLazyTensor.evaluate()`: either a dense matrix, or the
generic fallback. Modelled from the spec: `LazyTensor.evaluate` (the base
class's generic dense-evaluation path, not part of this excerpt) is applied
to `self` unchanged in the batched case. -/
inductive EvalResult where
  | dense (m : Mat)
  | genericEvaluate (self : DiagLazyTensor)
deriving Repr, DecidableEq

namespace DiagLazyTensor

/-- `DiagLazyTensor.evaluate()`: if `self.ndimension() == 2` (unbatched),
`self._diag.diag()` — the dense diagonal embedding; otherwise the
`super().evaluate()` generic fallback. -/
def evaluate (self : DiagLazyTensor) : EvalResult :=
  match self._diag with
  | .d1 d => .dense (diagEmbed d)
  | .d2 m => .genericEvaluate ⟨.d2 m⟩

end DiagLazyTensor

/-- Error raised by the dense tensor library on an impossible reshape
(`torch.Tensor.view`). -/
inductive TorchError where
  | shapeError
  | domainError
deriving Repr, DecidableEq

/-- The rows of `_diag` as reshaped by `view(-1, n)`: an `(n,)` tensor becomes
the single row of a `(1, n)` tensor, a `(B, n)` tensor keeps its rows. -/
def DTensor.rowsOf : DTensor → Mat
  | .d1 v => [v]
  | .d2 m => m

/-- Sum over dimension `-2` of a `(B, n)` tensor: the columnwise sum of its
rows. -/
def colSum : Mat → Vec
  | [] => []
  | [r] => r
  | r :: rs@(_ :: _) => List.zipWith (· + ·) r (colSum rs)

/-- The row grouping performed by `view(-1, g, n)` on a `(B, n)` tensor:
consecutive groups of `g` rows. Only invoked under the guard `0 < g`. -/
def chunkRows : ℕ → Mat → List Mat
  | _, [] => []
  | 0, _ :: _ => []
  | g + 1, x :: xs => List.take (g + 1) (x :: xs) :: chunkRows (g + 1) (List.drop g xs)
termination_by _ l => l.length
decreasing_by simp [List.length_drop]; omega

namespace DiagLazyTensor

/-- `DiagLazyTensor.sum_batch(sum_batch_size=None)`: with no group size,
`self._diag.view(-1, n).sum(-2)` wrapped in a new `DiagLazyTensor`; with a
group size, `self._diag.view(-1, sum_batch_size, n).sum(-2)`. The reshape
raises when `-1` cannot be inferred: `view(-1, g, n)` on `B·n` elements (the
modelled tensors are rectangular) needs `g·n ≠ 0` and `g·n ∣ B·n`. -/
def sum_batch (self : DiagLazyTensor) (sum_batch_size : Option ℕ) :
    Except TorchError DiagLazyTensor :=
  let rows := self._diag.rowsOf
  let n := self._diag.sizeLast
  match sum_batch_size with
  | none =>
      if n = 0 then .error .shapeError
      else .ok ⟨.d1 (colSum rows)⟩
  | some g =>
      if g * n ≠ 0 ∧ (rows.length * n) % (g * n) = 0 then
        .ok ⟨.d2 ((chunkRows g rows).map colSum)⟩
      else .error .shapeError

end DiagLazyTensor

/-- An IEEE-style value on the sampling path: torch `sqrt` maps a negative
float to NaN rather than raising, and NaN propagates through multiplication. -/
inductive FVal where
  | fin (q : ℚ)
  | nan
deriving Repr, DecidableEq

/-- Multiplication with NaN propagation. -/
def FVal.mul : FVal → FVal → FVal
  | .fin a, .fin b => .fin (a * b)
  | _, _ => .nan

/-- torch `Tensor.sqrt` on one entry: NaN for a negative input; for a
non-negative input the dense library returns a floating approximation of the
square root, modelled by a rational approximation (only the sign/NaN behavior
is contract-relevant here). -/
def torchSqrt (q : ℚ) : FVal :=
  if q < 0 then FVal.nan else FVal.fin ((Nat.sqrt q.num.natAbs : ℚ) / (Nat.sqrt q.den : ℚ))

/-- The result tensor of `zero_mean_mvn_samples`: rank 2 (`num_samples × n`)
for an unbatched instance, rank 3 (`num_samples × batch × n`) for a batched
one, with possibly-NaN entries. -/
inductive FTensor where
  | f2 (m : List (List FVal))
  | f3 (b : List (List (List FVal)))
deriving Repr, DecidableEq

namespace DiagLazyTensor

/-- `DiagLazyTensor.zero_mean_mvn_samples(num_samples)`: draws
`base_samples = torch.randn(num_samples, *diag_shape)` — the random draws are
supplied by the oracle `randn (sample) (batch) (col)` — and returns
`self._diag.unsqueeze(0).sqrt() * base_samples`. The body performs no
validation of the diagonal and contains no raising operation (torch `sqrt`
yields NaN on negative entries rather than raising), so no `.error` is ever
produced. -/
def zero_mean_mvn_samples (self : DiagLazyTensor) (num_samples : ℕ)
    (randn : ℕ → ℕ → ℕ → ℚ) : Except TorchError FTensor :=
  match self._diag with
  | .d1 d =>
      .ok (.f2 ((List.range num_samples).map (fun s =>
        (List.range d.length).map (fun j =>
          (torchSqrt (d.getD j 0)).mul (.fin (randn s 0 j))))))
  | .d2 dm =>
      .ok (.f3 ((List.range num_samples).map (fun s =>
        (List.range dm.length).map (fun b =>
          (List.range (DTensor.sizeLast (.d2 dm))).map (fun j =>
            (torchSqrt ((dm.getD b []).getD j 0)).mul (.fin (randn s b j)))))))

end DiagLazyTensor

/-! Helper lemmas about `List.getD` on the combinators used above. -/

theorem getD_map_eq {α β : Type} (f : α → β) (da : α) (db : β) (hf : f da = db)
    (l : List α) : ∀ k : ℕ, (l.map f).getD k db = f (l.getD k da) := by
  induction l with
  | nil => intro k; simp [hf.symm]
  | cons a t ih =>
      intro k
      cases k with
      | zero => simp
      | succ k => simpa using ih k

theorem getD_zipWith_eq {α β γ : Type} (f : α → β → γ) (da : α) (db : β) (dc : γ)
    (hf : f da db = dc) :
    ∀ (a : List α) (b : List β), a.length = b.length →
      ∀ k : ℕ, (List.zipWith f a b).getD k dc = f (a.getD k da) (b.getD k db) := by
  intro a
  induction a with
  | nil =>
      intro b hb k
      cases b with
      | nil => simp [hf.symm]
      | cons y u => simp at hb
  | cons x t ih =>
      intro b hb k
      cases b with
      | nil => simp at hb
      | cons y u =>
          cases k with
          | zero => simp
          | succ k => simpa using ih u (by simpa using hb) k

theorem getD_map_range {β : Type} (f : ℕ → β) (n : ℕ) (d : β) (k : ℕ) :
    ((List.range n).map f).getD k d = if k < n then f k else d := by
  split
  · next h =>
      rw [List.getD_eq_getElem _ _ (by simpa using h)]
      simp
  · next h =>
      exact List.getD_eq_default _ _ (by simpa using Nat.le_of_not_lt h)

theorem scaleRows_getD (d : Vec) (m : Mat) (h : d.length = m.length) (i j : ℕ) :
    ((DiagLazyTensor.scaleRows d m).getD i []).getD j 0
      = d.getD i 0 * ((m.getD i []).getD j 0) := by
  unfold DiagLazyTensor.scaleRows
  rw [getD_zipWith_eq (fun a row => row.map (fun x => a * x)) 0 [] [] (by simp) d m h i]
  exact getD_map_eq (fun x => d.getD i 0 * x) 0 0 (by simp) _ j

theorem colSum_length (n : ℕ) :
    ∀ m : Mat, m ≠ [] → (∀ row ∈ m, row.length = n) → (colSum m).length = n := by
  intro m
  induction m with
  | nil => intro h; exact absurd rfl h
  | cons r rs ih =>
      intro _ hr
      cases rs with
      | nil => simpa [colSum] using hr r (by simp)
      | cons a t =>
          have h1 : (colSum (a :: t)).length = n :=
            ih (by simp) (fun row hrow => hr row (by simp [hrow]))
          have h2 : r.length = n := hr r (by simp)
          simp [colSum, h1, h2]

theorem colSum_getD (n : ℕ) :
    ∀ m : Mat, (∀ row ∈ m, row.length = n) →
      ∀ j : ℕ, (colSum m).getD j 0 = (m.map (fun row => row.getD j 0)).sum := by
  intro m
  induction m with
  | nil => intro _ j; simp [colSum]
  | cons r rs ih =>
      intro hr j
      cases rs with
      | nil => simp [colSum]
      | cons a t =>
          have hlen : r.length = (colSum (a :: t)).length := by
            rw [colSum_length n (a :: t) (by simp) (fun row hrow => hr row (by simp [hrow]))]
            exact hr r (by simp)
          have ihj := ih (fun row hrow => hr row (by simp [hrow])) j
          simp only [colSum, List.map_cons, List.sum_cons]
          rw [getD_zipWith_eq (· + ·) 0 0 0 (by simp) r (colSum (a :: t)) hlen j, ihj]
          simp [List.sum_cons]

/-! Theorems for the verified claims. -/

/-- C6: for every DiagonalMatrix and every rhs, `_t_matmul(rhs)` returns
exactly the same result as `_matmul(rhs)`, and `_transpose_nonbatch()` returns
`self` unchanged (the matrix is self-adjoint). -/
theorem t_matmul_eq_and_transpose_self :
    (∀ (self : DiagLazyTensor) (rhs : Tensor), self._t_matmul rhs = self._matmul rhs) ∧
    (∀ self : DiagLazyTensor, self._transpose_nonbatch = self) :=
  ⟨fun _ _ => rfl, fun _ => rfl⟩

/-- C10: the diagonal-extraction round trip: a DiagonalMatrix constructed from
a 1- or 2-dimensional tensor `d` has `diag()` equal to `d` itself, and
`_size()` returns `(n, n)` when `d` has shape `(n,)` and `(B, n, n)` when `d`
has shape `(B, n)`. -/
theorem init_diag_size :
    (∀ t : DTensor, (DiagLazyTensor.mk t).diag = t) ∧
    (∀ v : Vec, DiagLazyTensor._size ⟨.d1 v⟩ = [v.length, v.length]) ∧
    (∀ (m : Mat) (n : ℕ), m ≠ [] → (∀ row ∈ m, row.length = n) →
      DiagLazyTensor._size ⟨.d2 m⟩ = [m.length, n, n]) := by
  refine ⟨fun t => rfl, fun v => rfl, fun m n hne hrect => ?_⟩
  cases m with
  | nil => exact absurd rfl hne
  | cons r rs =>
      have : r.length = n := hrect r (by simp)
      simp [DiagLazyTensor._size, DTensor.sizeLast, this]

theorem init_diag_size_witness :
    ([[5, 7, 9], [1, 2, 3]] : Mat) ≠ [] ∧
    DiagLazyTensor._size ⟨.d2 [[5, 7, 9], [1, 2, 3]]⟩ = [2, 3, 3] :=
  ⟨by simp, init_diag_size.2.2 [[5, 7, 9], [1, 2, 3]] 3 (by simp)
    (by intro row hrow; simp only [List.mem_cons, List.not_mem_nil, or_false] at hrow
        rcases hrow with rfl | rfl <;> rfl)⟩

/-- C7: `evaluate()` on an unbatched DiagonalMatrix with diagonal `d` of
length `n` is the dense `n × n` matrix with `d` on the main diagonal and zero
in every off-diagonal entry; on a batched DiagonalMatrix it is the generic
interface's dense-evaluation fallback applied to `self` unchanged. -/
theorem evaluate_cases :
    (∀ d : Vec, ∃ m : Mat, DiagLazyTensor.evaluate ⟨.d1 d⟩ = .dense m ∧
      m.length = d.length ∧
      (∀ row ∈ m, row.length = d.length) ∧
      ∀ i j : ℕ, (m.getD i []).getD j 0 = if i = j then d.getD i 0 else 0) ∧
    (∀ dm : Mat, DiagLazyTensor.evaluate ⟨.d2 dm⟩ = .genericEvaluate ⟨.d2 dm⟩) := by
  refine ⟨fun d => ⟨diagEmbed d, rfl, by simp [diagEmbed], ?_, ?_⟩, fun dm => rfl⟩
  · intro row hrow
    simp only [diagEmbed, List.mem_map] at hrow
    obtain ⟨i, _, rfl⟩ := hrow
    simp
  · intro i j
    unfold diagEmbed
    rw [getD_map_range (fun i => (List.range d.length).map
      (fun j => if i = j then d.getD i 0 else 0)) d.length [] i]
    split
    · next hi =>
        rw [getD_map_range (fun j => if i = j then d.getD i 0 else 0) d.length 0 j]
        split
        · rfl
        · next hj =>
            have : i ≠ j := fun h => hj (h ▸ hi)
            simp [this]
    · next hi =>
        have h1 : d[i]? = none := List.getElem?_eq_none (Nat.le_of_not_lt hi)
        simp [List.getD_eq_getElem?_getD, h1]

theorem evaluate_cases_witness :
    ∃ m : Mat, DiagLazyTensor.evaluate ⟨.d1 [2, 3]⟩ = .dense m ∧
      m.length = ([2, 3] : Vec).length ∧
      (∀ row ∈ m, row.length = ([2, 3] : Vec).length) ∧
      ∀ i j : ℕ, (m.getD i []).getD j 0 = if i = j then ([2, 3] : Vec).getD i 0 else 0 :=
  evaluate_cases.1 [2, 3]



/-- C1: for an unbatched DiagonalMatrix with diagonal `d` of length `n` and a
plain vector `rhs` of length `n`, `_matmul(rhs)` is the elementwise product
`d * rhs`; in the other cases (matrix `rhs`, batch-of-matrices `rhs` with an
unbatched diagonal, or batched diagonal with batch-of-matrices `rhs`, with
compatible shapes) the result is `diag` broadcast along the last dimension to
`rhs`'s shape, multiplied elementwise with `rhs`. -/
theorem matmul_cases :
    (∀ (d v : Vec), d.length = v.length →
      ∃ w, DiagLazyTensor._matmul ⟨.d1 d⟩ (.t1 v) = some (.t1 w) ∧
        w.length = v.length ∧
        ∀ i : ℕ, w.getD i 0 = d.getD i 0 * v.getD i 0) ∧
    (∀ (d : Vec) (m : Mat), d.length = m.length →
      ∃ w, DiagLazyTensor._matmul ⟨.d1 d⟩ (.t2 m) = some (.t2 w) ∧
        w.length = m.length ∧
        ∀ i j : ℕ, (w.getD i []).getD j 0 = d.getD i 0 * ((m.getD i []).getD j 0)) ∧
    (∀ (d : Vec) (b : List Mat), (∀ m ∈ b, d.length = m.length) →
      ∃ w, DiagLazyTensor._matmul ⟨.d1 d⟩ (.t3 b) = some (.t3 w) ∧
        w.length = b.length ∧
        ∀ k i j : ℕ, ((w.getD k []).getD i []).getD j 0
          = d.getD i 0 * (((b.getD k []).getD i []).getD j 0)) ∧
    (∀ (db : Mat) (b : List Mat), db.length = b.length →
      (∀ p ∈ List.zip db b, p.1.length = p.2.length) →
      ∃ w, DiagLazyTensor._matmul ⟨.d2 db⟩ (.t3 b) = some (.t3 w) ∧
        w.length = b.length ∧
        ∀ k i j : ℕ, ((w.getD k []).getD i []).getD j 0
          = (db.getD k []).getD i 0 * (((b.getD k []).getD i []).getD j 0)) := by
  refine ⟨?_, ?_, ?_, ?_⟩
  · intro d v h
    refine ⟨List.zipWith (· * ·) d v, ?_, ?_, ?_⟩
    · simp [DiagLazyTensor._matmul, h]
    · simp [h]
    · intro i; exact getD_zipWith_eq (· * ·) 0 0 0 (by simp) d v h i
  · intro d m h
    refine ⟨DiagLazyTensor.scaleRows d m, ?_, ?_, ?_⟩
    · simp [DiagLazyTensor._matmul, h]
    · simp [DiagLazyTensor.scaleRows, h]
    · intro i j; exact scaleRows_getD d m h i j
  · intro d b hb
    have hall : (b.all (fun m => d.length = m.length)) = true := by
      simp only [List.all_eq_true, decide_eq_true_eq]; exact hb
    refine ⟨b.map (DiagLazyTensor.scaleRows d), ?_, by simp, ?_⟩
    · simp [DiagLazyTensor._matmul, hall]
    · intro k i j
      rw [getD_map_eq (DiagLazyTensor.scaleRows d) [] []
        (by simp [DiagLazyTensor.scaleRows]) b k]
      by_cases hk : k < b.length
      · refine scaleRows_getD d (b.getD k []) ?_ i j
        rw [List.getD_eq_getElem b [] hk]
        exact hb _ (List.getElem_mem hk)
      · have hnone : b[k]? = none := List.getElem?_eq_none (Nat.le_of_not_lt hk)
        simp [List.getD_eq_getElem?_getD, hnone, DiagLazyTensor.scaleRows]
  · intro db b h1 h2
    have hall : ((List.zip db b).all (fun p => p.1.length = p.2.length)) = true := by
      simp only [List.all_eq_true, decide_eq_true_eq]; exact h2
    refine ⟨List.zipWith DiagLazyTensor.scaleRows db b, ?_, by simp [h1], ?_⟩
    · simp [DiagLazyTensor._matmul, h1, hall]
    · intro k i j
      rw [getD_zipWith_eq DiagLazyTensor.scaleRows [] [] []
        (by simp [DiagLazyTensor.scaleRows]) db b h1 k]
      by_cases hk : k < db.length
      · refine scaleRows_getD (db.getD k []) (b.getD k []) ?_ i j
        have hkb : k < b.length := h1 ▸ hk
        have hkz : k < (List.zip db b).length := by simp [List.length_zip, hk, hkb]
        have hmem : (db.getD k [], b.getD k []) ∈ List.zip db b := by
          rw [List.getD_eq_getElem db [] hk, List.getD_eq_getElem b [] hkb]
          have h3 := List.getElem_mem hkz
          simpa [List.getElem_zip] using h3
        exact h2 _ hmem
      · have e1 : db[k]? = none := List.getElem?_eq_none (Nat.le_of_not_lt hk)
        have e2 : b[k]? = none :=
          List.getElem?_eq_none (Nat.le_of_not_lt (fun hlt => (h1 ▸ hk) hlt))
        simp [List.getD_eq_getElem?_getD, e1, e2, DiagLazyTensor.scaleRows]

theorem matmul_cases_witness :
    (∃ w, DiagLazyTensor._matmul ⟨.d1 [2, 3]⟩ (.t1 [5, 7]) = some (.t1 w) ∧
      w.length = ([5, 7] : Vec).length ∧
      ∀ i : ℕ, w.getD i 0 = ([2, 3] : Vec).getD i 0 * ([5, 7] : Vec).getD i 0) ∧
    (∃ w, DiagLazyTensor._matmul ⟨.d1 [2, 3]⟩ (.t2 [[1, 4], [6, 8]]) = some (.t2 w) ∧
      w.length = ([[1, 4], [6, 8]] : Mat).length ∧
      ∀ i j : ℕ, (w.getD i []).getD j 0
        = ([2, 3] : Vec).getD i 0 * ((([[1, 4], [6, 8]] : Mat).getD i []).getD j 0)) ∧
    (∃ w, DiagLazyTensor._matmul ⟨.d1 [2]⟩ (.t3 [[[1, 5]]]) = some (.t3 w) ∧
      w.length = ([[[1, 5]]] : List Mat).length ∧
      ∀ k i j : ℕ, ((w.getD k []).getD i []).getD j 0
        = ([2] : Vec).getD i 0 * (((([[[1, 5]]] : List Mat).getD k []).getD i []).getD j 0)) ∧
    (∃ w, DiagLazyTensor._matmul ⟨.d2 [[2], [3]]⟩ (.t3 [[[1, 5]], [[4, 6]]]) = some (.t3 w) ∧
      w.length = ([[[1, 5]], [[4, 6]]] : List Mat).length ∧
      ∀ k i j : ℕ, ((w.getD k []).getD i []).getD j 0
        = (([[2], [3]] : Mat).getD k []).getD i 0 *
          (((([[[1, 5]], [[4, 6]]] : List Mat).getD k []).getD i []).getD j 0)) :=
  ⟨matmul_cases.1 [2, 3] [5, 7] rfl,
   matmul_cases.2.1 [2, 3] [[1, 4], [6, 8]] rfl,
   matmul_cases.2.2.1 [2] [[[1, 5]]] (by intro m hm; simp at hm; simp [hm]),
   matmul_cases.2.2.2 [[2], [3]] [[[1, 5]], [[4, 6]]] rfl
     (by intro p hp; simp at hp; rcases hp with ⟨rfl, rfl⟩ | ⟨rfl, rfl⟩ <;> rfl)⟩

/-- C2: for a DiagonalMatrix with diagonal `d` and equal-shape index tensors
with entries in `[0, n)`, `_get_indices(row_idx, col_idx)` returns, at each
position `k`, `d[row_idx[k]]` when `row_idx[k] == col_idx[k]` and exactly zero
otherwise; `_batch_get_indices` first indexes `d` by an explicit batch-index
tensor and then applies the same rule. -/
theorem get_indices_cases :
    (∀ (d : Vec) (l r : List ℕ), l.length = r.length →
      (∀ i ∈ l, i < d.length) → (∀ j ∈ r, j < d.length) →
      ∃ w, DiagLazyTensor._get_indices ⟨.d1 d⟩ l r = some w ∧
        w.length = l.length ∧
        ∀ k : ℕ, k < l.length →
          w.getD k 0 = if l.getD k 0 = r.getD k 0 then d.getD (l.getD k 0) 0 else 0) ∧
    (∀ (dm : Mat) (bi l r : List ℕ), l.length = r.length → bi.length = l.length →
      (∀ p ∈ List.zip bi l, p.1 < dm.length ∧ p.2 < (dm.getD p.1 []).length) →
      ∃ w, DiagLazyTensor._batch_get_indices ⟨.d2 dm⟩ bi l r = some w ∧
        w.length = l.length ∧
        ∀ k : ℕ, k < l.length →
          w.getD k 0 = if l.getD k 0 = r.getD k 0
            then (dm.getD (bi.getD k 0) []).getD (l.getD k 0) 0 else 0) := by
  constructor
  · intro d l r h hl hr
    have hall : (l.all fun i => decide (i < d.length)) = true := by
      simp only [List.all_eq_true, decide_eq_true_eq]; exact hl
    refine ⟨List.zipWith (fun v (p : ℕ × ℕ) => v * (if p.1 = p.2 then 1 else 0))
      (l.map (fun i => d.getD i 0)) (List.zip l r), ?_, ?_, ?_⟩
    · simp [DiagLazyTensor._get_indices, gather1?, h, hall]
    · simp [h]
    · intro k hk
      have hk2 : k < r.length := h ▸ hk
      have hkw : k < (List.zipWith (fun v (p : ℕ × ℕ) => v * (if p.1 = p.2 then 1 else 0))
          (l.map (fun i => d.getD i 0)) (List.zip l r)).length := by
        simp [List.length_zipWith, List.length_zip, hk, hk2]
      rw [List.getD_eq_getElem _ 0 hkw, List.getElem_zipWith]
      simp only [List.getElem_map, List.getElem_zip,
        List.getD_eq_getElem l 0 hk, List.getD_eq_getElem r 0 hk2]
      split
      · exact mul_one _
      · exact mul_zero _
  · intro dm bi l r h hbi hp
    have hall : ((List.zip bi l).all fun p =>
        decide (p.1 < dm.length) && decide (p.2 < (dm.getD p.1 []).length)) = true := by
      simp only [List.all_eq_true, Bool.and_eq_true, decide_eq_true_eq]
      exact hp
    have hzlen : (List.zip bi l).length = l.length := by
      simp [List.length_zip, hbi]
    refine ⟨List.zipWith (fun v (p : ℕ × ℕ) => v * (if p.1 = p.2 then 1 else 0))
      ((List.zip bi l).map (fun p => (dm.getD p.1 []).getD p.2 0)) (List.zip l r), ?_, ?_, ?_⟩
    · simp [DiagLazyTensor._batch_get_indices, gather2?, h, hbi, hall]
      intro x y hxy
      simpa [List.getD_eq_getElem?_getD] using hp (x, y) hxy
    · simp [hzlen, h]
    · intro k hk
      have hk2 : k < r.length := h ▸ hk
      have hkbi : k < bi.length := hbi ▸ hk
      have hkw : k < (List.zipWith (fun v (p : ℕ × ℕ) => v * (if p.1 = p.2 then 1 else 0))
          ((List.zip bi l).map (fun p => (dm.getD p.1 []).getD p.2 0)) (List.zip l r)).length := by
        simp [List.length_zipWith, List.length_zip, hzlen, hk, hk2, hkbi]
      rw [List.getD_eq_getElem _ 0 hkw, List.getElem_zipWith]
      simp only [List.getElem_map, List.getElem_zip,
        List.getD_eq_getElem l 0 hk, List.getD_eq_getElem r 0 hk2,
        List.getD_eq_getElem bi 0 hkbi]
      split
      · exact mul_one _
      · exact mul_zero _

theorem get_indices_cases_witness :
    (∃ w, DiagLazyTensor._get_indices ⟨.d1 [2, 3]⟩ [0, 1] [0, 1] = some w ∧
      w.length = ([0, 1] : List ℕ).length ∧
      ∀ k : ℕ, k < ([0, 1] : List ℕ).length →
        w.getD k 0 = if ([0, 1] : List ℕ).getD k 0 = ([0, 1] : List ℕ).getD k 0
          then ([2, 3] : Vec).getD (([0, 1] : List ℕ).getD k 0) 0 else 0) ∧
    (∃ w, DiagLazyTensor._batch_get_indices ⟨.d2 [[1, 2], [3, 4]]⟩ [1, 0] [1, 0] [1, 1]
        = some w ∧
      w.length = ([1, 0] : List ℕ).length ∧
      ∀ k : ℕ, k < ([1, 0] : List ℕ).length →
        w.getD k 0 = if ([1, 0] : List ℕ).getD k 0 = ([1, 1] : List ℕ).getD k 0
          then (([[1, 2], [3, 4]] : Mat).getD (([1, 0] : List ℕ).getD k 0) []).getD
            (([1, 0] : List ℕ).getD k 0) 0 else 0) :=
  ⟨get_indices_cases.1 [2, 3] [0, 1] [0, 1] rfl (by decide) (by decide),
   get_indices_cases.2 [[1, 2], [3, 4]] [1, 0] [1, 0] [1, 1] rfl rfl (by decide)⟩

/-- C3: adding two DiagonalMatrices with equal-shape diagonals yields a
DiagonalMatrix whose diagonal is the elementwise sum; adding any non-diagonal
lazy tensor yields the lazily-composed `AddedDiagLazyTensor(other, self)`,
holding both operands unevaluated (no dense materialization). -/
theorem add_cases :
    (∀ (d1 d2 : Vec), d1.length = d2.length →
      ∃ s, DiagLazyTensor.add ⟨.d1 d1⟩ (.diagOp ⟨.d1 d2⟩) = some (.diagRes ⟨.d1 s⟩) ∧
        s.length = d1.length ∧ ∀ i : ℕ, s.getD i 0 = d1.getD i 0 + d2.getD i 0) ∧
    (∀ (m1 m2 : Mat), m1.length = m2.length →
      (∀ p ∈ List.zip m1 m2, p.1.length = p.2.length) →
      ∃ s, DiagLazyTensor.add ⟨.d2 m1⟩ (.diagOp ⟨.d2 m2⟩) = some (.diagRes ⟨.d2 s⟩) ∧
        s.length = m1.length ∧
        ∀ i j : ℕ, (s.getD i []).getD j 0
          = (m1.getD i []).getD j 0 + (m2.getD i []).getD j 0) ∧
    (∀ (self : DiagLazyTensor) (o : OtherLazyTensor),
      DiagLazyTensor.add self (.otherOp o) = some (.addedDiagRes o self)) := by
  refine ⟨?_, ?_, fun self o => rfl⟩
  · intro d1 d2 h
    refine ⟨List.zipWith (· + ·) d1 d2, ?_, ?_, ?_⟩
    · simp [DiagLazyTensor.add, DTensor.addSame?, h]
    · simp [h]
    · intro i; exact getD_zipWith_eq (· + ·) 0 0 0 (by simp) d1 d2 h i
  · intro m1 m2 h hp
    have hall : ((List.zip m1 m2).all fun p => decide (p.1.length = p.2.length)) = true := by
      simp only [List.all_eq_true, decide_eq_true_eq]; exact hp
    refine ⟨List.zipWith (List.zipWith (· + ·)) m1 m2, ?_, by simp [h], ?_⟩
    · simp [DiagLazyTensor.add, DTensor.addSame?, h, hall]
    · intro i j
      rw [getD_zipWith_eq (List.zipWith (· + ·)) [] [] [] rfl m1 m2 h i]
      by_cases hi : i < m1.length
      · refine getD_zipWith_eq (· + ·) 0 0 0 (by simp) _ _ ?_ j
        have hi2 : i < m2.length := h ▸ hi
        have hiz : i < (List.zip m1 m2).length := by simp [List.length_zip, hi, hi2]
        have hmem : (m1.getD i [], m2.getD i []) ∈ List.zip m1 m2 := by
          rw [List.getD_eq_getElem m1 [] hi, List.getD_eq_getElem m2 [] hi2]
          have h3 := List.getElem_mem hiz
          simpa [List.getElem_zip] using h3
        exact hp _ hmem
      · have e1 : m1[i]? = none := List.getElem?_eq_none (Nat.le_of_not_lt hi)
        have e2 : m2[i]? = none :=
          List.getElem?_eq_none (Nat.le_of_not_lt (fun hlt => hi (h ▸ hlt)))
        simp [List.getD_eq_getElem?_getD, e1, e2]

theorem add_cases_witness :
    (∃ s, DiagLazyTensor.add ⟨.d1 [1, 2]⟩ (.diagOp ⟨.d1 [10, 20]⟩)
        = some (.diagRes ⟨.d1 s⟩) ∧
      s.length = ([1, 2] : Vec).length ∧
      ∀ i : ℕ, s.getD i 0 = ([1, 2] : Vec).getD i 0 + ([10, 20] : Vec).getD i 0) ∧
    (∃ s, DiagLazyTensor.add ⟨.d2 [[1], [2]]⟩ (.diagOp ⟨.d2 [[5], [6]]⟩)
        = some (.diagRes ⟨.d2 s⟩) ∧
      s.length = ([[1], [2]] : Mat).length ∧
      ∀ i j : ℕ, (s.getD i []).getD j 0
        = (([[1], [2]] : Mat).getD i []).getD j 0 + (([[5], [6]] : Mat).getD i []).getD j 0) ∧
    DiagLazyTensor.add ⟨.d1 [1, 2]⟩ (.otherOp ⟨7⟩) = some (.addedDiagRes ⟨7⟩ ⟨.d1 [1, 2]⟩) :=
  ⟨add_cases.1 [1, 2] [10, 20] rfl,
   add_cases.2.1 [[1], [2]] [[5], [6]] rfl
     (by intro p hpz; simp at hpz; rcases hpz with ⟨rfl, rfl⟩ | ⟨rfl, rfl⟩ <;> rfl),
   add_cases.2.2 ⟨.d1 [1, 2]⟩ ⟨7⟩⟩

/-- C4: `_quad_form_derivative(left_vecs, right_vecs)` returns a single-element
tuple whose entry is the elementwise product `left_vecs * right_vecs`, summed
over the trailing dimension exactly when that product has more dimensions than
`diag` (vector inputs with an unbatched diagonal and matrix inputs with a
batched diagonal are returned unsummed; matrix inputs with an unbatched
diagonal and rank-3 inputs with a batched diagonal are summed over the
trailing dimension). -/
theorem quad_form_derivative_cases :
    (∀ (dg l r : Vec), l.length = r.length →
      ∃ w, DiagLazyTensor._quad_form_derivative ⟨.d1 dg⟩ (.t1 l) (.t1 r) = some [.t1 w] ∧
        w.length = l.length ∧ ∀ i : ℕ, w.getD i 0 = l.getD i 0 * r.getD i 0) ∧
    (∀ (dg : Vec) (l r : Mat), l.length = r.length →
      (∀ p ∈ List.zip l r, p.1.length = p.2.length) →
      ∃ w, DiagLazyTensor._quad_form_derivative ⟨.d1 dg⟩ (.t2 l) (.t2 r) = some [.t1 w] ∧
        w.length = l.length ∧
        ∀ i : ℕ, w.getD i 0 = (List.zipWith (· * ·) (l.getD i []) (r.getD i [])).sum) ∧
    (∀ (dg l r : Mat), l.length = r.length →
      (∀ p ∈ List.zip l r, p.1.length = p.2.length) →
      ∃ w, DiagLazyTensor._quad_form_derivative ⟨.d2 dg⟩ (.t2 l) (.t2 r) = some [.t2 w] ∧
        w.length = l.length ∧
        ∀ i j : ℕ, (w.getD i []).getD j 0
          = (l.getD i []).getD j 0 * (r.getD i []).getD j 0) ∧
    (∀ (dg : Mat) (l r : List Mat), l.length = r.length →
      (∀ p ∈ List.zip l r, p.1.length = p.2.length ∧
        ∀ q ∈ List.zip p.1 p.2, q.1.length = q.2.length) →
      ∃ w, DiagLazyTensor._quad_form_derivative ⟨.d2 dg⟩ (.t3 l) (.t3 r) = some [.t2 w] ∧
        w.length = l.length ∧
        ∀ k i : ℕ, (w.getD k []).getD i 0
          = (List.zipWith (· * ·) ((l.getD k []).getD i [])
              ((r.getD k []).getD i [])).sum) := by
  refine ⟨?_, ?_, ?_, ?_⟩
  · intro dg l r h
    have hs : sameShape (.t1 l) (.t1 r) = true := by simp [sameShape, h]
    refine ⟨List.zipWith (· * ·) l r, ?_, ?_, ?_⟩
    · simp [DiagLazyTensor._quad_form_derivative, tmul?, hs,
        DTensor.ndimension, Tensor.ndimension]
    · simp [h]
    · intro i; exact getD_zipWith_eq (· * ·) 0 0 0 (by simp) l r h i
  · intro dg l r h hp
    have hs : sameShape (.t2 l) (.t2 r) = true := by
      simp only [sameShape, Bool.and_eq_true, beq_iff_eq, List.all_eq_true]
      exact ⟨h, fun p hpz => by exact_mod_cast hp p hpz⟩
    refine ⟨(List.zipWith (List.zipWith (· * ·)) l r).map List.sum, ?_, ?_, ?_⟩
    · simp [DiagLazyTensor._quad_form_derivative, tmul?, hs,
        DTensor.ndimension, Tensor.ndimension, tsumLast]
    · simp [h]
    · intro i
      rw [getD_map_eq List.sum [] 0 rfl _ i,
        getD_zipWith_eq (List.zipWith (· * ·)) [] [] [] rfl l r h i]
  · intro dg l r h hp
    have hs : sameShape (.t2 l) (.t2 r) = true := by
      simp only [sameShape, Bool.and_eq_true, beq_iff_eq, List.all_eq_true]
      exact ⟨h, fun p hpz => by exact_mod_cast hp p hpz⟩
    refine ⟨List.zipWith (List.zipWith (· * ·)) l r, ?_, by simp [h], ?_⟩
    · simp [DiagLazyTensor._quad_form_derivative, tmul?, hs,
        DTensor.ndimension, Tensor.ndimension]
    · intro i j
      rw [getD_zipWith_eq (List.zipWith (· * ·)) [] [] [] rfl l r h i]
      by_cases hi : i < l.length
      · refine getD_zipWith_eq (· * ·) 0 0 0 (by simp) _ _ ?_ j
        have hi2 : i < r.length := h ▸ hi
        have hiz : i < (List.zip l r).length := by simp [List.length_zip, hi, hi2]
        have hmem : (l.getD i [], r.getD i []) ∈ List.zip l r := by
          rw [List.getD_eq_getElem l [] hi, List.getD_eq_getElem r [] hi2]
          have h3 := List.getElem_mem hiz
          simpa [List.getElem_zip] using h3
        exact hp _ hmem
      · have e1 : l[i]? = none := List.getElem?_eq_none (Nat.le_of_not_lt hi)
        have e2 : r[i]? = none :=
          List.getElem?_eq_none (Nat.le_of_not_lt (fun hlt => hi (h ▸ hlt)))
        simp [List.getD_eq_getElem?_getD, e1, e2]
  · intro dg l r h hp
    have hs : sameShape (.t3 l) (.t3 r) = true := by
      simp only [sameShape, Bool.and_eq_true, beq_iff_eq, List.all_eq_true]
      refine ⟨h, fun p hpz => ⟨by exact_mod_cast (hp p hpz).1, fun q hq => ?_⟩⟩
      exact_mod_cast (hp p hpz).2 q hq
    refine ⟨(List.zipWith (List.zipWith (List.zipWith (· * ·))) l r).map
      (fun m => m.map List.sum), ?_, by simp [h], ?_⟩
    · simp [DiagLazyTensor._quad_form_derivative, tmul?, hs,
        DTensor.ndimension, Tensor.ndimension, tsumLast]
    · intro k i
      have hmap0 : (fun m : Mat => m.map List.sum) ([] : Mat) = ([] : Vec) := rfl
      rw [getD_map_eq (fun m : Mat => m.map List.sum) ([] : Mat) ([] : Vec) hmap0 _ k,
        getD_zipWith_eq (List.zipWith (List.zipWith (· * ·))) [] [] [] rfl l r h k,
        getD_map_eq List.sum [] 0 rfl _ i]
      by_cases hk : k < l.length
      · congr 1
        refine getD_zipWith_eq (List.zipWith (· * ·)) [] [] [] rfl _ _ ?_ i
        have hk2 : k < r.length := h ▸ hk
        have hkz : k < (List.zip l r).length := by simp [List.length_zip, hk, hk2]
        have hmem : (l.getD k [], r.getD k []) ∈ List.zip l r := by
          rw [List.getD_eq_getElem l [] hk, List.getD_eq_getElem r [] hk2]
          have h3 := List.getElem_mem hkz
          simpa [List.getElem_zip] using h3
        exact (hp _ hmem).1
      · have e1 : l[k]? = none := List.getElem?_eq_none (Nat.le_of_not_lt hk)
        have e2 : r[k]? = none :=
          List.getElem?_eq_none (Nat.le_of_not_lt (fun hlt => hk (h ▸ hlt)))
        simp [List.getD_eq_getElem?_getD, e1, e2]

theorem quad_form_derivative_cases_witness :
    (∃ w, DiagLazyTensor._quad_form_derivative ⟨.d1 [5, 5]⟩ (.t1 [1, 2]) (.t1 [3, 4])
        = some [.t1 w] ∧
      w.length = ([1, 2] : Vec).length ∧
      ∀ i : ℕ, w.getD i 0 = ([1, 2] : Vec).getD i 0 * ([3, 4] : Vec).getD i 0) ∧
    (∃ w, DiagLazyTensor._quad_form_derivative ⟨.d1 [5, 5]⟩
        (.t2 [[1, 2], [3, 4]]) (.t2 [[5, 6], [7, 8]]) = some [.t1 w] ∧
      w.length = ([[1, 2], [3, 4]] : Mat).length ∧
      ∀ i : ℕ, w.getD i 0 = (List.zipWith (· * ·) (([[1, 2], [3, 4]] : Mat).getD i [])
        (([[5, 6], [7, 8]] : Mat).getD i [])).sum) :=
  ⟨quad_form_derivative_cases.1 [5, 5] [1, 2] [3, 4] rfl,
   quad_form_derivative_cases.2.1 [5, 5] [[1, 2], [3, 4]] [[5, 6], [7, 8]] rfl
     (by intro p hpz; simp at hpz; rcases hpz with ⟨rfl, rfl⟩ | ⟨rfl, rfl⟩ <;> rfl)⟩

theorem length_flatten_of_const (g : ℕ) :
    ∀ L : List Mat, (∀ G ∈ L, G.length = g) → L.flatten.length = L.length * g := by
  intro L
  induction L with
  | nil => intro _; simp
  | cons G rest ih =>
      intro h
      have h1 : G.length = g := h G (by simp)
      have h2 := ih (fun x hx => h x (by simp [hx]))
      simp only [List.flatten_cons, List.length_append, h1, h2, List.length_cons]
      ring

theorem chunkRows_flatten (g : ℕ) (hg : 0 < g) :
    ∀ groups : List Mat, (∀ G ∈ groups, G.length = g) →
      chunkRows g groups.flatten = groups := by
  intro groups
  induction groups with
  | nil => intro _; simp [chunkRows]
  | cons G rest ih =>
      intro hG
      have hGlen : G.length = g := hG G (by simp)
      obtain ⟨g', rfl⟩ : ∃ g', g = g' + 1 := ⟨g - 1, by omega⟩
      cases G with
      | nil => simp at hGlen
      | cons x xs =>
          have hxs : xs.length = g' := by simpa using hGlen
          simp only [List.flatten_cons, List.cons_append]
          rw [chunkRows]
          rw [List.take_succ_cons, List.take_left' hxs, List.drop_left' hxs]
          rw [ih (fun x hx => hG x (by simp [hx]))]

/-- C5: on a batched DiagonalMatrix with diagonal shape `(B, n)`, `sum_batch`
with no group size returns an unbatched DiagonalMatrix whose diagonal of shape
`(n,)` is the columnwise sum over the batch; with a group size `g` dividing
`B` it returns a batched DiagonalMatrix of diagonal shape `(B/g, n)` in which
each row is the sum of its `g`-sized group of consecutive batch entries
(the batch is quantified as a concatenation of `B/g` groups of `g` rows). -/
theorem sum_batch_cases :
    (∀ (m : Mat) (n : ℕ), 0 < n → m ≠ [] → (∀ row ∈ m, row.length = n) →
      ∃ s, DiagLazyTensor.sum_batch ⟨.d2 m⟩ none = .ok ⟨.d1 s⟩ ∧ s.length = n ∧
        ∀ j : ℕ, s.getD j 0 = (m.map (fun row => row.getD j 0)).sum) ∧
    (∀ (groups : List Mat) (g n : ℕ), 0 < g → 0 < n → groups ≠ [] →
      (∀ G ∈ groups, G.length = g) →
      (∀ G ∈ groups, ∀ row ∈ G, row.length = n) →
      ∃ s, DiagLazyTensor.sum_batch ⟨.d2 groups.flatten⟩ (some g) = .ok ⟨.d2 s⟩ ∧
        s.length = groups.length ∧
        ∀ q j : ℕ, (s.getD q []).getD j 0
          = ((groups.getD q []).map (fun row => row.getD j 0)).sum) := by
  constructor
  · intro m n hn hne hrect
    have hhead : DTensor.sizeLast (.d2 m) = n := by
      cases m with
      | nil => exact absurd rfl hne
      | cons r rs => simpa [DTensor.sizeLast] using hrect r (by simp)
    refine ⟨colSum m, ?_, colSum_length n m hne hrect, fun j => colSum_getD n m hrect j⟩
    simp [DiagLazyTensor.sum_batch, DTensor.rowsOf, hhead, hn.ne']
  · intro groups g n hg hn hne hlen hrect
    have hhead : DTensor.sizeLast (.d2 groups.flatten) = n := by
      cases groups with
      | nil => exact absurd rfl hne
      | cons G rest =>
          have hGlen : G.length = g := hlen G (by simp)
          cases G with
          | nil => simp at hGlen; omega
          | cons row G2 =>
              have : row.length = n := hrect (row :: G2) (by simp) row (by simp)
              simp [DTensor.sizeLast, List.flatten_cons, this]
    have hjoin : groups.flatten.length = groups.length * g :=
      length_flatten_of_const g groups hlen
    have hmod : (groups.flatten.length * n) % (g * n) = 0 := by
      rw [hjoin]
      have : groups.length * g * n = g * n * groups.length := by ring
      rw [this, Nat.mul_mod_right]
    have hchunk : chunkRows g groups.flatten = groups := chunkRows_flatten g hg groups hlen
    refine ⟨groups.map colSum, ?_, by simp, ?_⟩
    · have hgn : g * n ≠ 0 := by positivity
      simp only [DiagLazyTensor.sum_batch, DTensor.rowsOf]
      rw [hhead, if_pos ⟨hgn, hmod⟩, hchunk]
    · intro q j
      rw [getD_map_eq colSum [] [] (by simp [colSum]) groups q]
      by_cases hq : q < groups.length
      · refine colSum_getD n (groups.getD q []) ?_ j
        rw [List.getD_eq_getElem groups [] hq]
        exact hrect _ (List.getElem_mem hq)
      · have e1 : groups[q]? = none := List.getElem?_eq_none (Nat.le_of_not_lt hq)
        simp [List.getD_eq_getElem?_getD, e1, colSum]

theorem sum_batch_cases_witness :
    (∃ s, DiagLazyTensor.sum_batch ⟨.d2 [[1, 2], [3, 4]]⟩ none = .ok ⟨.d1 s⟩ ∧
      s.length = 2 ∧
      ∀ j : ℕ, s.getD j 0 = (([[1, 2], [3, 4]] : Mat).map (fun row => row.getD j 0)).sum) ∧
    (∃ s, DiagLazyTensor.sum_batch
        ⟨.d2 ([[[1, 2], [3, 4]], [[5, 6], [7, 8]]] : List Mat).flatten⟩ (some 2)
        = .ok ⟨.d2 s⟩ ∧
      s.length = ([[[1, 2], [3, 4]], [[5, 6], [7, 8]]] : List Mat).length ∧
      ∀ q j : ℕ, (s.getD q []).getD j 0
        = ((([[[1, 2], [3, 4]], [[5, 6], [7, 8]]] : List Mat).getD q []).map
            (fun row => row.getD j 0)).sum) :=
  ⟨sum_batch_cases.1 [[1, 2], [3, 4]] 2 (by decide) (by simp)
     (by intro row hrow; simp only [List.mem_cons, List.not_mem_nil, or_false] at hrow
         rcases hrow with rfl | rfl <;> rfl),
   sum_batch_cases.2 [[[1, 2], [3, 4]], [[5, 6], [7, 8]]] 2 2 (by decide) (by decide)
     (by simp)
     (by intro G hG; simp only [List.mem_cons, List.not_mem_nil, or_false] at hG
         rcases hG with rfl | rfl <;> rfl)
     (by intro G hG row hrow
         simp only [List.mem_cons, List.not_mem_nil, or_false] at hG
         rcases hG with rfl | rfl <;>
           (simp only [List.mem_cons, List.not_mem_nil, or_false] at hrow
            rcases hrow with rfl | rfl <;> rfl))⟩

/-- C9: on a batched DiagonalMatrix with batch dimension `B`, `sum_batch` with
a group size `g` that does not evenly divide `B` fails with the reshape error
(the spec's DivisibilityError / ShapeError) and returns no result. -/
theorem sum_batch_indivisible (m : Mat) (n g : ℕ) (hne : m ≠ []) (hn : 0 < n)
    (hrect : ∀ row ∈ m, row.length = n) (hdvd : ¬ g ∣ m.length) :
    DiagLazyTensor.sum_batch ⟨.d2 m⟩ (some g) = .error .shapeError := by
  have hhead : DTensor.sizeLast (.d2 m) = n := by
    cases m with
    | nil => exact absurd rfl hne
    | cons r rs => simpa [DTensor.sizeLast] using hrect r (by simp)
  rcases Nat.eq_zero_or_pos g with hg | hg
  · subst hg
    simp [DiagLazyTensor.sum_batch, DTensor.rowsOf, hhead]
  · have hmod : (m.length * n) % (g * n) ≠ 0 := by
      rw [Nat.mul_mod_mul_right]
      intro h0
      rcases Nat.mul_eq_zero.mp h0 with h1 | h1
      · exact hdvd (Nat.dvd_of_mod_eq_zero h1)
      · exact hn.ne' h1
    simp [DiagLazyTensor.sum_batch, DTensor.rowsOf, hhead, hmod]

theorem sum_batch_indivisible_witness :
    ([[1], [2]] : Mat) ≠ [] ∧ 0 < 1 ∧ ¬ (3 ∣ ([[1], [2]] : Mat).length) ∧
    DiagLazyTensor.sum_batch ⟨.d2 [[1], [2]]⟩ (some 3) = .error .shapeError :=
  ⟨by simp, by decide, by decide,
   sum_batch_indivisible [[1], [2]] 1 3 (by simp) (by decide)
     (by intro row hrow; simp only [List.mem_cons, List.not_mem_nil, or_false] at hrow
         rcases hrow with rfl | rfl <;> rfl)
     (by decide)⟩

/-- C8 counterexample: invoked on the diagonal `[-1]`, which has a negative
entry, `zero_mean_mvn_samples` does not fail — it returns a sample tensor
(whose entry is NaN, since torch `sqrt` maps a negative input to NaN rather
than raising), so no DomainError is surfaced to the caller. -/
theorem mvn_samples_negative_no_error_cex :
    DiagLazyTensor.zero_mean_mvn_samples ⟨.d1 [-1]⟩ 1 (fun _ _ _ => 1)
      = .ok (.f2 [[.nan]]) := by
  rfl

/-- C8 (amended): `zero_mean_mvn_samples` performs no domain check: on a
DiagonalMatrix (unbatched or batched) whose diagonal has a negative entry it
returns normally, and every sample's entry at that position is NaN — the
undefined square root propagates into the samples silently instead of being
surfaced as an error. -/
theorem mvn_samples_negative_nan :
    (∀ (d : Vec) (num_samples : ℕ) (randn : ℕ → ℕ → ℕ → ℚ) (i : ℕ),
      i < d.length → d.getD i 0 < 0 →
      ∃ s, DiagLazyTensor.zero_mean_mvn_samples ⟨.d1 d⟩ num_samples randn
          = .ok (.f2 s) ∧
        s.length = num_samples ∧
        ∀ row ∈ s, row.getD i (.fin 0) = .nan) ∧
    (∀ (dm : Mat) (n num_samples : ℕ) (randn : ℕ → ℕ → ℕ → ℚ) (b j : ℕ),
      (∀ row ∈ dm, row.length = n) → b < dm.length → j < n →
      (dm.getD b []).getD j 0 < 0 →
      ∃ s, DiagLazyTensor.zero_mean_mvn_samples ⟨.d2 dm⟩ num_samples randn
          = .ok (.f3 s) ∧
        s.length = num_samples ∧
        ∀ cube ∈ s, (cube.getD b []).getD j (.fin 0) = .nan) := by
  constructor
  · intro d num_samples randn i hi hneg
    refine ⟨_, rfl, by simp, ?_⟩
    intro row hrow
    simp only [List.mem_map, List.mem_range] at hrow
    obtain ⟨sIdx, _, rfl⟩ := hrow
    rw [getD_map_range _ d.length (FVal.fin 0) i, if_pos hi]
    have hnan : torchSqrt (d.getD i 0) = FVal.nan := by
      unfold torchSqrt; rw [if_pos hneg]
    rw [hnan]
    rfl
  · intro dm n num_samples randn b j hrect hb hj hneg
    have hne : dm ≠ [] := by intro he; rw [he] at hb; simp at hb
    have hhead : DTensor.sizeLast (.d2 dm) = n := by
      cases dm with
      | nil => exact absurd rfl hne
      | cons r rs => simpa [DTensor.sizeLast] using hrect r (by simp)
    refine ⟨_, rfl, by simp, ?_⟩
    intro cube hcube
    simp only [List.mem_map, List.mem_range] at hcube
    obtain ⟨sIdx, _, rfl⟩ := hcube
    rw [getD_map_range _ dm.length [] b, if_pos hb]
    rw [getD_map_range _ (DTensor.sizeLast (.d2 dm)) (FVal.fin 0) j, if_pos (hhead ▸ hj)]
    have hnan : torchSqrt ((dm.getD b []).getD j 0) = FVal.nan := by
      unfold torchSqrt; rw [if_pos hneg]
    rw [hnan]
    rfl

theorem mvn_samples_negative_nan_witness :
    0 < ([-1] : Vec).length ∧ ([-1] : Vec).getD 0 0 < 0 ∧
    ∃ s, DiagLazyTensor.zero_mean_mvn_samples ⟨.d1 [-1]⟩ 2 (fun _ _ _ => 1)
        = .ok (.f2 s) ∧
      s.length = 2 ∧
      ∀ row ∈ s, row.getD 0 (.fin 0) = .nan :=
  ⟨by decide, by norm_num,
   mvn_samples_negative_nan.1 [-1] 2 (fun _ _ _ => 1) 0 (by decide) (by norm_num)⟩
